import Mathlib

set_option maxRecDepth 10000

/-!
Verification development for the RFC 9421 HTTP message signature demo worker.

The embedding below models, from the repository's source:

* `normalizePem` (src/utils.ts) — the PEM key normalizer, built from the
  JavaScript chain
  three chained `String.replace` calls guarded by an `includes` test: a
  newline-free input has the pattern `-----BEGIN PUBLIC KEY-----\s*`
  replaced by the marker plus a newline, then `\s*-----END PUBLIC KEY-----`
  replaced by a newline plus the marker, then every capture of the global
  pattern `(.\x7b64\x7d)` replaced by itself plus a newline.
  The JS regex classes are modelled character-exactly: `\s` is the JS
  whitespace class (`isJsWhitespace`), and `.` matches every character
  except the four JS line terminators (`isDotChar`).  A first-occurrence
  non-global replace is `splitFirst`; the global 64-chunk replace is
  `chunkAux`, which inserts a newline after every run of 64 consecutive
  dot-characters, the run counter resetting at every non-dot character.

* `algorithmMap` (src/config.ts) — the algorithm registry, and the JS
  membership test `params.alg in algorithmMap`, which, via the prototype
  chain of an object literal, also accepts the property names inherited
  from `Object.prototype` (`protoKeys`); reading such a key yields the
  inherited member, not a table value (`algMapRead`).

* `verifySignature` (src/verification.ts) — the orchestrator.  Its external
  collaborators are parameters: `CryptoOracle` stands for
  `node:crypto`'s `createPublicKey` and `verify`, and `LibBehavior` for the
  `http-message-sig` library's `verify`, which either fails on its own
  (for example on missing headers) or invokes the inner callback with the
  reconstructed signature base, the signature bytes and the declared
  parameters.  Thrown JS exceptions are modelled as `Except.error` carrying
  the exception message; the orchestrator's outer try/catch is the final
  match that converts the pipeline's result into a `VerificationResult`.
-/

namespace Rfc9421Demo

/-- Whitespace class of the JS regex `\s` (ECMA-262 WhiteSpace plus
LineTerminator), decided per character. -/
def isJsWhitespace (c : Char) : Bool :=
  c == '\t' || c == '\n' || c == '\x0b' || c == '\x0c' || c == '\r' || c == ' '
    || c == '\u00a0' || c == '\u1680'
    || (decide ('\u2000' ≤ c) && decide (c ≤ '\u200a'))
    || c == '\u2028' || c == '\u2029' || c == '\u202f' || c == '\u205f'
    || c == '\u3000' || c == '\ufeff'

/-- Character class of the JS regex `.` (without the `s` flag): every
character except the four ECMA-262 line terminators. -/
def isDotChar (c : Char) : Bool :=
  !(c == '\n' || c == '\r' || c == '\u2028' || c == '\u2029')

/-- Opening PEM marker used by the normalizer's first replace. -/
def beginMarker : String := "-----BEGIN PUBLIC KEY-----"

/-- Closing PEM marker used by the normalizer's second replace. -/
def endMarker : String := "-----END PUBLIC KEY-----"

/-- Boolean model of JS `pemKey.includes('\n')`. -/
def hasNl : List Char → Bool
  | [] => false
  | c :: cs => c == '\n' || hasNl cs

/-- Whether `pat` is a prefix of `l`, decided character by character. -/
def listStartsWith : List Char → List Char → Bool
  | [], _ => true
  | _ :: _, [] => false
  | p :: ps, c :: cs => p == c && listStartsWith ps cs

/-- First occurrence of `pat` in a character list: `some (pre, post)` with
the input equal to `pre ++ pat ++ post` at the leftmost match, `none` when
`pat` does not occur.  This is the span a non-global JS
`String.replace` with a literal-headed pattern operates on. -/
def splitFirst (pat : List Char) : List Char → Option (List Char × List Char)
  | [] => if listStartsWith pat [] then some ([], []) else none
  | c :: cs =>
    if listStartsWith pat (c :: cs) then some ([], (c :: cs).drop pat.length)
    else (splitFirst pat cs).map (fun pq => (c :: pq.1, pq.2))

/-- Maximal whitespace run removed from the end of a list, modelling the
greedy `\s*` that precedes the END marker in the second replace. -/
def dropTrailingWs (l : List Char) : List Char :=
  (l.reverse.dropWhile isJsWhitespace).reverse

/-- First replace of the normalizer, pattern `-----BEGIN PUBLIC KEY-----\s*`:
at the first occurrence of the BEGIN marker, the marker plus the greedy
whitespace run after it is replaced by the marker plus one newline. -/
def replaceBegin (l : List Char) : List Char :=
  match splitFirst beginMarker.data l with
  | none => l
  | some (pre, post) =>
    pre ++ beginMarker.data ++ '\n' :: post.dropWhile isJsWhitespace

/-- Second replace of the normalizer, pattern `\s*-----END PUBLIC KEY-----`:
the greedy whitespace run before the first occurrence of the END marker
plus the marker is replaced by one newline plus the marker. -/
def replaceEnd (l : List Char) : List Char :=
  match splitFirst endMarker.data l with
  | none => l
  | some (pre, post) => dropTrailingWs pre ++ '\n' :: (endMarker.data ++ post)

/-- Third, global replace of the normalizer, pattern `(.\x7b64\x7d)` with
replacement `$1` plus a newline, as a single pass: `k` counts the
dot-characters consumed since the last inserted newline or non-dot
character; after the 64th one a newline is inserted and the counter
resets. -/
def chunkAux : List Char → Nat → List Char
  | [], _ => []
  | c :: cs, k =>
    if isDotChar c then
      if k + 1 == 64 then c :: '\n' :: chunkAux cs 0
      else c :: chunkAux cs (k + 1)
    else c :: chunkAux cs 0

/-- Global 64-character chunking starting with an empty run. -/
def chunk64 (l : List Char) : List Char := chunkAux l 0

/-- Single-line branch of the normalizer: the three chained replaces. -/
def pemTransform (l : List Char) : List Char :=
  chunk64 (replaceEnd (replaceBegin l))

/-- PEM normalizer of src/utils.ts: inputs that already contain a newline
are returned unchanged, single-line inputs go through the three
replaces. -/
def normalizePem (s : String) : String :=
  if hasNl s.data then s else String.mk (pemTransform s.data)

/-- Lines of a character list, split at every newline character; the
result is always nonempty and a trailing newline yields a final empty
line. -/
def splitLines : List Char → List (List Char)
  | [] => [[]]
  | c :: cs =>
    if c == '\n' then [] :: splitLines cs
    else
      match splitLines cs with
      | [] => [[c]]
      | ln :: rest => (c :: ln) :: rest

/-- Result shape of the orchestrator, mirroring the
`VerificationResult` interface of src/verification.ts. -/
structure VerificationResult where
  verified : Bool
  error : Option String
deriving DecidableEq

/-- Value produced by the JS property read `algorithmMap[alg]`: either an
own entry of the table (a hash name string or the `null` used for
Ed25519), or a member inherited from `Object.prototype` (a function or
object, never a hash name). -/
inductive HashArg where
  | value : Option String → HashArg
  | protoMember : String → HashArg
deriving DecidableEq

/-- External cryptographic collaborators of the orchestrator:
`createPublicKey` parses a PEM text into a key handle or throws, and
`cryptoVerify` checks a signature, returning a boolean or throwing on
structurally impossible inputs.  `Except.error` carries the thrown
message. -/
structure CryptoOracle (Key : Type) where
  createPublicKey : String → Except String Key
  cryptoVerify : HashArg → String → Key → List Nat → Except String Bool

/-- Algorithm registry of src/config.ts, in the source's entry order. -/
def algorithmMap : List (String × Option String) :=
  [("ed25519", none),
   ("hmac-sha256", some ("sha256")),
   ("rsa-pss-sha512", some ("sha512")),
   ("rsa-v1_5-sha256", some ("sha256")),
   ("ecdsa-p384-sha384", some ("sha384")),
   ("ecdsa-p256-sha256", some ("sha256"))]

/-- Property names every JS object literal inherits from
`Object.prototype`; the JS `in` operator accepts these for
`algorithmMap` as well. -/
def protoKeys : List String :=
  ["constructor", "hasOwnProperty", "isPrototypeOf", "propertyIsEnumerable",
   "toLocaleString", "toString", "valueOf",
   "__defineGetter__", "__defineSetter__", "__lookupGetter__",
   "__lookupSetter__", "__proto__"]

/-- String interpolation of the possibly-absent `params.alg`: JS renders
`undefined` in a template literal. -/
def algString : Option String → String
  | none => "undefined"
  | some s => s

/-- JS membership test `alg in algorithmMap`: an own key of the table or a
property name inherited from `Object.prototype`. -/
def inAlgorithmMap (a : String) : Bool :=
  (List.lookup a algorithmMap).isSome || protoKeys.contains a

/-- Guard `!params.alg || !(params.alg in algorithmMap)` of the
orchestrator: the parameter is absent or the empty string (JS falsiness),
or the `in` test fails. -/
def algCheckFails (alg : Option String) : Bool :=
  (match alg with
   | none => true
   | some s => s == "") || !(inAlgorithmMap (algString alg))

/-- JS property read `algorithmMap[alg]`: an own entry yields its table
value; on the code path where the `in` test succeeded without an own
entry, the read walks the prototype chain and yields the inherited
member. -/
def algMapRead (a : String) : HashArg :=
  match List.lookup a algorithmMap with
  | some v => HashArg.value v
  | none => HashArg.protoMember a

/-- Inner try/catch around key parsing: a `createPublicKey` failure is
rethrown with the `Failed to parse public key: ` prefix. -/
def parseStep {Key : Type} (O : CryptoOracle Key) (pemKey : String) :
    Except String Key :=
  match O.createPublicKey (normalizePem pemKey) with
  | Except.ok k => Except.ok k
  | Except.error m => Except.error ("Failed to parse public key: " ++ m)

/-- Verification callback passed to the `http-message-sig` `verify`
(src/verification.ts lines 66-143): normalize and parse the key, check
the declared algorithm against the registry, run the cryptographic
primitive with the table's hash value, and throw `Invalid signature` when
the primitive returns false. -/
def callback {Key : Type} (O : CryptoOracle Key) (pemKey data : String)
    (signature : List Nat) (alg : Option String) : Except String Unit :=
  match parseStep O pemKey with
  | Except.error m => Except.error m
  | Except.ok publicKey =>
    if algCheckFails alg then
      Except.error ("Unsupported or missing algorithm: " ++ algString alg)
    else
      match O.cryptoVerify (algMapRead (algString alg)) data publicKey signature with
      | Except.error m => Except.error m
      | Except.ok isValid =>
        if isValid then Except.ok () else Except.error ("Invalid signature")

/-- Behaviour of the external `http-message-sig` `verify` on a given
request: it either throws on its own (missing or malformed signature
headers) or invokes the callback with the reconstructed signature base,
the decoded signature bytes and the declared `alg` parameter. -/
inductive LibBehavior where
  | fail : String → LibBehavior
  | invoke : String → List Nat → Option String → LibBehavior

/-- Body of the orchestrator's outer `try`: run the library `verify`,
propagating a callback failure as the thrown error. -/
def runVerify {Key : Type} (O : CryptoOracle Key) (lib : LibBehavior)
    (pemKey : String) : Except String Unit :=
  match lib with
  | LibBehavior.fail m => Except.error m
  | LibBehavior.invoke data signature alg => callback O pemKey data signature alg

/-- Orchestrator `verifySignature` of src/verification.ts: the outer
try/catch converts every thrown error into `verified := false` with the
error's message, and a completed run into `verified := true`. -/
def verifySignature {Key : Type} (O : CryptoOracle Key) (lib : LibBehavior)
    (pemKey : String) : VerificationResult :=
  match runVerify O lib pemKey with
  | Except.ok _ => { verified := true, error := none }
  | Except.error m => { verified := false, error := some m }

/-! ## Basic facts about the newline test and the chunker -/

theorem hasNl_eq_true_iff {l : List Char} : hasNl l = true ↔ '\n' ∈ l := by
  induction l with
  | nil => simp [hasNl]
  | cons c cs ih =>
    constructor
    · intro h
      simp only [hasNl, Bool.or_eq_true, beq_iff_eq] at h
      rcases h with h | h
      · exact h ▸ List.mem_cons_self _ _
      · exact List.mem_cons_of_mem _ (ih.mp h)
    · intro h
      rcases List.mem_cons.mp h with h | h
      · subst h; simp [hasNl]
      · simp [hasNl, ih.mpr h]

theorem hasNl_eq_false_of {l : List Char} (h : ∀ c ∈ l, c ≠ '\n') :
    hasNl l = false := by
  cases hn : hasNl l with
  | false => rfl
  | true => exact absurd rfl (h _ (hasNl_eq_true_iff.mp hn))

theorem hasNl_append {a b : List Char} :
    hasNl (a ++ b) = (hasNl a || hasNl b) := by
  induction a with
  | nil => simp [hasNl]
  | cons c cs ih => simp [hasNl, ih, Bool.or_assoc]

theorem chunkAux_eq_or_mem (l : List Char) :
    ∀ k, chunkAux l k = l ∨ '\n' ∈ chunkAux l k := by
  induction l with
  | nil => intro k; exact Or.inl rfl
  | cons c cs ih =>
    intro k
    cases hd : isDotChar c with
    | true =>
      cases h64 : (k + 1 == 64) with
      | true =>
        right
        simp [chunkAux, hd, h64]
      | false =>
        rcases ih (k + 1) with he | hm
        · left; simp [chunkAux, hd, h64, he]
        · right; simp [chunkAux, hd, h64]; exact Or.inr hm
    | false =>
      rcases ih 0 with he | hm
      · left; simp [chunkAux, hd, he]
      · right; simp [chunkAux, hd]; exact Or.inr hm

theorem mem_chunkAux_of_mem {l : List Char} {x : Char} (h : x ∈ l) :
    ∀ k, x ∈ chunkAux l k := by
  induction l with
  | nil => cases h
  | cons c cs ih =>
    intro k
    rcases List.mem_cons.mp h with hx | hx
    · subst hx
      cases hd : isDotChar x <;> cases h64 : (k + 1 == 64) <;>
        simp [chunkAux, hd, h64]
    · cases hd : isDotChar c <;> cases h64 : (k + 1 == 64) <;>
        simp [chunkAux, hd, h64, ih hx]

theorem mem_of_mem_chunkAux {l : List Char} {x : Char} :
    ∀ {k}, x ∈ chunkAux l k → x ∈ l ∨ x = '\n' := by
  induction l with
  | nil => intro k h; cases h
  | cons c cs ih =>
    intro k h
    cases hd : isDotChar c with
    | true =>
      cases h64 : (k + 1 == 64) with
      | true =>
        simp only [chunkAux, hd, h64, if_true] at h
        rcases List.mem_cons.mp h with hx | hx
        · exact Or.inl (hx ▸ List.mem_cons_self _ _)
        · rcases List.mem_cons.mp hx with hx2 | hx2
          · exact Or.inr hx2
          · rcases ih hx2 with hmem | hnl
            · exact Or.inl (List.mem_cons_of_mem _ hmem)
            · exact Or.inr hnl
      | false =>
        simp only [chunkAux, hd, h64, if_true, if_false] at h
        rcases List.mem_cons.mp h with hx | hx
        · exact Or.inl (hx ▸ List.mem_cons_self _ _)
        · rcases ih hx with hmem | hnl
          · exact Or.inl (List.mem_cons_of_mem _ hmem)
          · exact Or.inr hnl
    | false =>
      simp only [chunkAux, hd, Bool.false_eq_true, if_false] at h
      rcases List.mem_cons.mp h with hx | hx
      · exact Or.inl (hx ▸ List.mem_cons_self _ _)
      · rcases ih hx with hmem | hnl
        · exact Or.inl (List.mem_cons_of_mem _ hmem)
        · exact Or.inr hnl

/-! ## Facts about prefix matching and leftmost occurrence -/

theorem eq_append_of_listStartsWith :
    ∀ {pat l : List Char}, listStartsWith pat l = true →
      l = pat ++ l.drop pat.length := by
  intro pat
  induction pat with
  | nil => intro l _; simp
  | cons p ps ih =>
    intro l h
    cases l with
    | nil => simp [listStartsWith] at h
    | cons c cs =>
      simp only [listStartsWith, Bool.and_eq_true, beq_iff_eq] at h
      obtain ⟨hpc, hrest⟩ := h
      subst hpc
      simpa using congrArg (List.cons p) (ih hrest)

theorem splitFirst_eq_append :
    ∀ {l pre post : List Char} {pat : List Char},
      splitFirst pat l = some (pre, post) → l = pre ++ pat ++ post := by
  intro l
  induction l with
  | nil =>
    intro pre post pat h
    cases pat with
    | nil =>
      simp [splitFirst, listStartsWith] at h
      simp [h.1, h.2]
    | cons p ps => simp [splitFirst, listStartsWith] at h
  | cons c cs ih =>
    intro pre post pat h
    simp only [splitFirst] at h
    cases hsw : listStartsWith pat (c :: cs) with
    | true =>
      rw [hsw] at h
      simp only [if_true] at h
      obtain ⟨hpre, hpost⟩ := Prod.mk.injEq .. ▸ Option.some.injEq .. ▸ h
      subst hpre
      rw [← hpost]
      simpa using eq_append_of_listStartsWith hsw
    | false =>
      rw [hsw] at h
      simp only [Bool.false_eq_true, if_false, Option.map_eq_some'] at h
      obtain ⟨⟨pre', post'⟩, hsf, heq⟩ := h
      obtain ⟨hpre, hpost⟩ := Prod.mk.injEq .. ▸ heq
      subst hpost
      rw [← hpre]
      simpa using ih hsf

/-! ## Membership through the replaces -/

theorem mem_of_mem_dropWhile {p : Char → Bool} :
    ∀ {l : List Char} {x : Char}, x ∈ l.dropWhile p → x ∈ l := by
  intro l
  induction l with
  | nil => intro x h; simp at h
  | cons c cs ih =>
    intro x h
    cases hp : p c with
    | true =>
      rw [List.dropWhile_cons_of_pos hp] at h
      exact List.mem_cons_of_mem _ (ih h)
    | false =>
      rwa [List.dropWhile_cons_of_neg (by simp [hp])] at h

theorem mem_of_mem_dropTrailingWs {l : List Char} {x : Char}
    (h : x ∈ dropTrailingWs l) : x ∈ l := by
  unfold dropTrailingWs at h
  rw [List.mem_reverse] at h
  exact List.mem_reverse.mp (mem_of_mem_dropWhile h)

theorem replaceBegin_eq_or_mem (l : List Char) :
    replaceBegin l = l ∨ '\n' ∈ replaceBegin l := by
  unfold replaceBegin
  cases h : splitFirst beginMarker.data l with
  | none => exact Or.inl rfl
  | some pq =>
    obtain ⟨pre, post⟩ := pq
    right
    simp [List.mem_append]

theorem replaceEnd_eq_or_mem (l : List Char) :
    replaceEnd l = l ∨ '\n' ∈ replaceEnd l := by
  unfold replaceEnd
  cases h : splitFirst endMarker.data l with
  | none => exact Or.inl rfl
  | some pq =>
    obtain ⟨pre, post⟩ := pq
    right
    simp [List.mem_append]

theorem mem_of_mem_replaceBegin {l : List Char} {x : Char}
    (h : x ∈ replaceBegin l) : x ∈ l ∨ x = '\n' ∨ x ∈ beginMarker.data := by
  unfold replaceBegin at h
  cases hs : splitFirst beginMarker.data l with
  | none => rw [hs] at h; exact Or.inl h
  | some pq =>
    obtain ⟨pre, post⟩ := pq
    rw [hs] at h
    have hl := splitFirst_eq_append hs
    simp only [List.append_assoc, List.mem_append, List.mem_cons] at h
    rcases h with hpre | hbm | hnl | hdrop
    · exact Or.inl (by rw [hl]; simp [hpre])
    · exact Or.inr (Or.inr hbm)
    · exact Or.inr (Or.inl hnl)
    · exact Or.inl (by rw [hl]; simp [mem_of_mem_dropWhile hdrop])

theorem mem_of_mem_replaceEnd {l : List Char} {x : Char}
    (h : x ∈ replaceEnd l) : x ∈ l ∨ x = '\n' ∨ x ∈ endMarker.data := by
  unfold replaceEnd at h
  cases hs : splitFirst endMarker.data l with
  | none => rw [hs] at h; exact Or.inl h
  | some pq =>
    obtain ⟨pre, post⟩ := pq
    rw [hs] at h
    have hl := splitFirst_eq_append hs
    simp only [List.append_assoc, List.mem_append, List.mem_cons] at h
    rcases h with hpre | hnl | hem | hpost
    · exact Or.inl (by rw [hl]; simp [mem_of_mem_dropTrailingWs hpre])
    · exact Or.inr (Or.inl hnl)
    · exact Or.inr (Or.inr hem)
    · exact Or.inl (by rw [hl]; simp [hpost])

theorem pemTransform_eq_or_mem (l : List Char) :
    pemTransform l = l ∨ '\n' ∈ pemTransform l := by
  unfold pemTransform chunk64
  rcases replaceBegin_eq_or_mem l with h1 | h1
  · rw [h1]
    rcases replaceEnd_eq_or_mem l with h2 | h2
    · rw [h2]; exact chunkAux_eq_or_mem l 0
    · exact Or.inr (mem_chunkAux_of_mem h2 0)
  · refine Or.inr (mem_chunkAux_of_mem ?_ 0)
    rcases replaceEnd_eq_or_mem (replaceBegin l) with he | hm
    · rw [he]; exact h1
    · exact hm

/-! ## Claims about the normalizer that need no line accounting -/

/-- C6: the PEM normalizer is idempotent: normalizing an already
normalized text returns it unchanged, for every input string. -/
theorem claim6_normalize_idempotent (s : String) :
    normalizePem (normalizePem s) = normalizePem s := by
  cases h : hasNl s.data with
  | true => simp [normalizePem, h]
  | false =>
    rcases pemTransform_eq_or_mem s.data with he | hm
    · have hmk : String.mk s.data = s := rfl
      simp [normalizePem, h, he, hmk]
    · have h2 : hasNl (String.mk (pemTransform s.data)).data = true :=
        hasNl_eq_true_iff.mpr hm
      simp [normalizePem, h, h2]

/-- C7: an input that already contains a line break is returned
unchanged by the normalizer. -/
theorem claim7_multiline_unchanged (s : String) (h : hasNl s.data = true) :
    normalizePem s = s := by
  simp [normalizePem, h]

/-- Witness for C7 at a concrete two-line input. -/
theorem claim7_multiline_unchanged_witness :
    normalizePem ("a\nb") = "a\nb" :=
  claim7_multiline_unchanged ("a\nb") rfl


/-! ## Line-length accounting for the chunker -/

theorem chunkAux_lines :
    ∀ (l : List Char) (k : Nat), k ≤ 63 →
      (∀ c ∈ l, isDotChar c = true ∨ c = '\n') →
      ∃ hd tl, splitLines (chunkAux l k) = hd :: tl ∧ hd.length + k ≤ 64 ∧
        ∀ ln ∈ tl, ln.length ≤ 64 := by
  intro l
  induction l with
  | nil =>
    intro k hk _
    exact ⟨[], [], rfl, by simp; omega, by intro ln h; cases h⟩
  | cons c cs ih =>
    intro k hk hall
    have hcs : ∀ x ∈ cs, isDotChar x = true ∨ x = '\n' :=
      fun x hx => hall x (List.mem_cons_of_mem _ hx)
    rcases hall c (List.mem_cons_self _ _) with hdot | hnl
    · have hcne : (c == '\n') = false := by
        cases hc : c == '\n' with
        | false => rfl
        | true =>
          have hcnl := eq_of_beq hc
          subst hcnl
          exact absurd hdot (by decide)
      cases h64 : (k + 1 == 64) with
      | true =>
        have hk63 : k = 63 := by
          have := eq_of_beq h64
          omega
        have hchunk : chunkAux (c :: cs) k = c :: '\n' :: chunkAux cs 0 := by
          simp [chunkAux, hdot, h64]
        rcases ih 0 (by omega) hcs with ⟨hd, tl, hsp, hhd, htl⟩
        refine ⟨[c], hd :: tl, ?_, by simp [hk63], ?_⟩
        · rw [hchunk]
          simp [splitLines, hcne, hsp]
        · intro ln hln
          rcases List.mem_cons.mp hln with h | h
          · subst h; omega
          · exact htl ln h
      | false =>
        have hchunk : chunkAux (c :: cs) k = c :: chunkAux cs (k + 1) := by
          simp [chunkAux, hdot, h64]
        have hk1 : k + 1 ≤ 63 := by
          have hne : k + 1 ≠ 64 := by
            intro he
            rw [he] at h64
            simp at h64
          omega
        rcases ih (k + 1) hk1 hcs with ⟨hd, tl, hsp, hhd, htl⟩
        refine ⟨c :: hd, tl, ?_, ?_, htl⟩
        · rw [hchunk]
          simp [splitLines, hcne, hsp]
        · simp only [List.length_cons]
          omega
    · subst hnl
      have hchunk : chunkAux ('\n' :: cs) k = '\n' :: chunkAux cs 0 := by
        simp [chunkAux, show isDotChar '\n' = false from rfl]
      rcases ih 0 (by omega) hcs with ⟨hd, tl, hsp, hhd, htl⟩
      refine ⟨[], hd :: tl, ?_, by simp; omega, ?_⟩
      · rw [hchunk]
        simp [splitLines, hsp]
      · intro ln hln
        rcases List.mem_cons.mp hln with h | h
        · subst h; omega
        · exact htl ln h

/-- Every character of the BEGIN marker is matched by the JS dot. -/
theorem beginMarker_dot : ∀ c ∈ beginMarker.data, isDotChar c = true := by decide

/-- Every character of the END marker is matched by the JS dot. -/
theorem endMarker_dot : ∀ c ∈ endMarker.data, isDotChar c = true := by decide

/-- Every line of a character list is at most 64 characters long. -/
def allLinesLe64 (l : List Char) : Prop :=
  ∀ ln ∈ splitLines l, ln.length ≤ 64

/-- C8 as amended: on a single-line input all of whose characters are
matched by the chunker's dot class (so no carriage returns or Unicode
line separators), every line of the normalizer's output — not only the
non-final ones — is at most 64 characters long. -/
theorem claim8_line_bound (s : String) (h1 : hasNl s.data = false)
    (h2 : ∀ c ∈ s.data, isDotChar c = true) :
    allLinesLe64 (normalizePem s).data := by
  have hall : ∀ c ∈ replaceEnd (replaceBegin s.data),
      isDotChar c = true ∨ c = '\n' := by
    intro c hc
    rcases mem_of_mem_replaceEnd hc with hc2 | hnl | hem
    · rcases mem_of_mem_replaceBegin hc2 with hc3 | hnl | hbm
      · exact Or.inl (h2 c hc3)
      · exact Or.inr hnl
      · exact Or.inl (beginMarker_dot c hbm)
    · exact Or.inr hnl
    · exact Or.inl (endMarker_dot c hem)
  have hnorm : normalizePem s = String.mk (pemTransform s.data) := by
    simp [normalizePem, h1]
  rw [hnorm]
  rcases chunkAux_lines (replaceEnd (replaceBegin s.data)) 0 (by omega) hall
    with ⟨hd, tl, hsp, hhd, htl⟩
  intro ln hln
  have hdata : (String.mk (pemTransform s.data)).data = pemTransform s.data := rfl
  rw [hdata] at hln
  unfold pemTransform chunk64 at hln
  rw [hsp] at hln
  rcases List.mem_cons.mp hln with h | h
  · subst h; omega
  · exact htl ln h

/-- Witness input for the amended C8: the single-line ECDSA P-256 test
key used by the repository's test suite. -/
def singleLineKey : String :=
  "-----BEGIN PUBLIC KEY----- MFkwEwYHKoZIzj0CAQYIKoZIzj0DAQcDQgAEW69HKj6RAv5JS9cuAc6cpp3jplPykLyuqO6dqPt2IMZz9cezYIiieW0rZfGQ0W0T2aOD4LkrW0pf739cJGz98Q== -----END PUBLIC KEY-----"

/-- Witness for the amended C8 at the concrete single-line test key. -/
theorem claim8_line_bound_witness :
    allLinesLe64 (normalizePem singleLineKey).data :=
  claim8_line_bound singleLineKey (by decide) (by decide)

/-- Input refuting C8 as stated: it contains no newline, so it is a
single-line input in the sense the code tests, but its 65 carriage
returns are skipped by the chunker, leaving a 92-character first output
line that is neither the last line nor the last body line. -/
def c8Input : String :=
  String.mk (List.replicate 65 '\r' ++
    ('X' :: (beginMarker.data ++
      (' ' :: (List.replicate 10 'A' ++ (' ' :: endMarker.data))))))

/-- Counterexample to C8 as stated: `c8Input` has no line break, yet the
normalized output has a line longer than 64 characters even after
excluding both the final line and the final body line. -/
theorem claim8_counterexample :
    hasNl c8Input.data = false ∧
    ∃ ln ∈ (splitLines (normalizePem c8Input).data).dropLast.dropLast,
      64 < ln.length := by
  constructor
  · decide
  · decide

/-! ## Computing the two replaces on well-formed single-line inputs -/

theorem listStartsWith_append_self : ∀ (pat r : List Char),
    listStartsWith pat (pat ++ r) = true := by
  intro pat r
  induction pat with
  | nil => rfl
  | cons p ps ih => simp [listStartsWith, ih]

theorem splitFirst_self_prefix (pat X : List Char) (hne : pat ≠ []) :
    splitFirst pat (pat ++ X) = some ([], X) := by
  cases pat with
  | nil => exact absurd rfl hne
  | cons p ps =>
    have hsw : listStartsWith (p :: ps) ((p :: ps) ++ X) = true :=
      listStartsWith_append_self _ _
    rw [List.cons_append]
    simp only [splitFirst, ← List.cons_append, hsw, if_true]
    simp [List.drop_left]

/-- Windows that exclude a first occurrence of `pat` anywhere inside
`pre` when the input continues with `t`. -/
def cleanAux (pat : List Char) : List Char → List Char → Bool
  | [], _ => true
  | c :: cs, t => !(listStartsWith pat (c :: (cs ++ t))) && cleanAux pat cs t

theorem splitFirst_append_of_clean (pat : List Char) :
    ∀ (pre t : List Char), cleanAux pat pre t = true →
      splitFirst pat (pre ++ t) =
        (splitFirst pat t).map (fun pq => (pre ++ pq.1, pq.2)) := by
  intro pre
  induction pre with
  | nil =>
    intro t _
    cases h : splitFirst pat t with
    | none => simp [h]
    | some pq => obtain ⟨a, b⟩ := pq; simp [h]
  | cons c cs ih =>
    intro t hclean
    simp only [cleanAux, Bool.and_eq_true, Bool.not_eq_true'] at hclean
    obtain ⟨hsw, hrest⟩ := hclean
    have hstep : splitFirst pat ((c :: cs) ++ t)
        = (splitFirst pat (cs ++ t)).map (fun pq => (c :: pq.1, pq.2)) := by
      rw [List.cons_append]
      simp only [splitFirst]
      rw [hsw]
      simp
    rw [hstep, ih t hrest]
    cases h : splitFirst pat t with
    | none => simp
    | some pq => obtain ⟨a, b⟩ := pq; simp

theorem splitFirst_skip (pat : List Char) :
    ∀ (xs t : List Char),
      (∀ c ∈ xs, ∀ l, listStartsWith pat (c :: l) = false) →
      splitFirst pat (xs ++ t) =
        (splitFirst pat t).map (fun pq => (xs ++ pq.1, pq.2)) := by
  intro xs
  induction xs with
  | nil =>
    intro t _
    cases h : splitFirst pat t with
    | none => simp [h]
    | some pq => obtain ⟨a, b⟩ := pq; simp [h]
  | cons c cs ih =>
    intro t hall
    have hsw := hall c (List.mem_cons_self _ _) (cs ++ t)
    have hstep : splitFirst pat ((c :: cs) ++ t)
        = (splitFirst pat (cs ++ t)).map (fun pq => (c :: pq.1, pq.2)) := by
      rw [List.cons_append]
      simp only [splitFirst]
      rw [hsw]
      simp
    rw [hstep, ih t (fun x hx => hall x (List.mem_cons_of_mem _ hx))]
    cases h : splitFirst pat t with
    | none => simp
    | some pq => obtain ⟨a, b⟩ := pq; simp

theorem sw_end_false {c : Char} (h : ('-' == c) = false) (l : List Char) :
    listStartsWith endMarker.data (c :: l) = false := by
  rw [show listStartsWith endMarker.data (c :: l)
      = (('-' == c) && listStartsWith (endMarker.data.drop 1) l) from rfl, h,
    Bool.false_and]

theorem dropWhile_append_of_all {p : Char → Bool} :
    ∀ {w r : List Char}, (∀ c ∈ w, p c = true) →
      List.dropWhile p (w ++ r) = List.dropWhile p r := by
  intro w
  induction w with
  | nil => intro r _; rfl
  | cons c cs ih =>
    intro r h
    rw [List.cons_append, List.dropWhile_cons_of_pos (h c (List.mem_cons_self _ _))]
    exact ih (fun x hx => h x (List.mem_cons_of_mem _ hx))

theorem dropWhile_cons_of_not {p : Char → Bool} {c : Char} {r : List Char}
    (h : p c = false) : List.dropWhile p (c :: r) = c :: r :=
  List.dropWhile_cons_of_neg (by simp [h])

theorem dropTrailingWs_append {a body w : List Char}
    (hw : ∀ c ∈ w, isJsWhitespace c = true)
    (hb : ∀ c ∈ body, isJsWhitespace c = false) (hne : body ≠ []) :
    dropTrailingWs ((a ++ body) ++ w) = a ++ body := by
  unfold dropTrailingWs
  rw [List.reverse_append, List.reverse_append]
  rw [dropWhile_append_of_all (fun c hc => hw c (List.mem_reverse.mp hc))]
  obtain ⟨y, ys, hy⟩ : ∃ y ys, body.reverse = y :: ys := by
    cases hbr : body.reverse with
    | nil =>
      have := List.reverse_eq_nil_iff.mp hbr
      exact absurd this hne
    | cons y ys => exact ⟨y, ys, rfl⟩
  have hymem : y ∈ body := by
    rw [← List.mem_reverse, hy]
    exact List.mem_cons_self _ _
  rw [hy, List.cons_append, dropWhile_cons_of_not (hb y hymem), ← List.cons_append,
    ← hy, ← List.reverse_append, List.reverse_reverse]

/-! ## The chunker on exact multiples of 64 -/

theorem chunkAux_block :
    ∀ (body : List Char) (m : Nat) (rest : List Char),
      (∀ c ∈ body, isDotChar c = true) → body ≠ [] → m + body.length = 64 →
      chunkAux (body ++ rest) m = body ++ '\n' :: chunkAux rest 0 := by
  intro body
  induction body with
  | nil => intro m rest _ hne _; exact absurd rfl hne
  | cons c cs ih =>
    intro m rest hdot hne hlen
    have hd : isDotChar c = true := hdot c (List.mem_cons_self _ _)
    cases cs with
    | nil =>
      have hm : m = 63 := by simp at hlen; omega
      subst hm
      simp [chunkAux, hd]
    | cons c2 cs2 =>
      have hlen2 : (m + 1) + (c2 :: cs2).length = 64 := by
        simp only [List.length_cons] at hlen ⊢
        omega
      have h64 : (m + 1 == 64) = false := by
        rw [beq_eq_false_iff_ne]
        simp only [List.length_cons] at hlen
        omega
      have hchunk : chunkAux ((c :: c2 :: cs2) ++ rest) m
          = c :: chunkAux ((c2 :: cs2) ++ rest) (m + 1) := by
        simp [chunkAux, hd, h64]
      rw [hchunk,
        ih (m + 1) rest (fun x hx => hdot x (List.mem_cons_of_mem _ hx))
          (by simp) hlen2]
      simp

theorem chunkAux_blocks :
    ∀ (n : Nat) (body rest : List Char),
      (∀ c ∈ body, isDotChar c = true) → body.length = 64 * (n + 1) →
      ∃ front, chunkAux (body ++ rest) 0 = front ++ '\n' :: chunkAux rest 0 := by
  intro n
  induction n with
  | zero =>
    intro body rest hdot hlen
    refine ⟨body, chunkAux_block body 0 rest hdot ?_ (by omega)⟩
    intro h
    rw [h] at hlen
    simp at hlen
  | succ n ih =>
    intro body rest hdot hlen
    have hsplit := List.take_append_drop 64 body
    have hlt : (body.take 64).length = 64 := by
      rw [List.length_take, hlen]
      omega
    have hld : (body.drop 64).length = 64 * (n + 1) := by
      rw [List.length_drop, hlen]
      omega
    have hdot1 : ∀ c ∈ body.take 64, isDotChar c = true :=
      fun c hc => hdot c (List.take_subset _ _ hc)
    have hdot2 : ∀ c ∈ body.drop 64, isDotChar c = true :=
      fun c hc => hdot c (List.drop_subset _ _ hc)
    rcases ih (body.drop 64) rest hdot2 hld with ⟨f, hf⟩
    refine ⟨body.take 64 ++ '\n' :: f, ?_⟩
    calc chunkAux (body ++ rest) 0
        = chunkAux (body.take 64 ++ (body.drop 64 ++ rest)) 0 := by
          rw [← List.append_assoc, hsplit]
      _ = body.take 64 ++ '\n' :: chunkAux (body.drop 64 ++ rest) 0 :=
          chunkAux_block _ 0 _ hdot1
            (by intro h; rw [h] at hlt; simp at hlt) (by omega)
      _ = body.take 64 ++ '\n' :: (f ++ '\n' :: chunkAux rest 0) := by rw [hf]
      _ = (body.take 64 ++ '\n' :: f) ++ '\n' :: chunkAux rest 0 := by simp

theorem chunkAux_beginPrefix (t : List Char) :
    chunkAux (beginMarker.data ++ '\n' :: t) 0
      = beginMarker.data ++ '\n' :: chunkAux t 0 := rfl

theorem chunkAux_nl_end :
    chunkAux ('\n' :: endMarker.data) 0 = '\n' :: endMarker.data := rfl

/-! ## Base64 and whitespace character facts -/

/-- Alphabet of base64 bodies, padding included. -/
def base64Chars : List Char :=
  "ABCDEFGHIJKLMNOPQRSTUVWXYZabcdefghijklmnopqrstuvwxyz0123456789+/=".data

/-- Membership in the base64 alphabet. -/
def isBase64Char (c : Char) : Bool := base64Chars.any (fun d => d == c)

theorem mem_of_isBase64Char {c : Char} (h : isBase64Char c = true) :
    c ∈ base64Chars := by
  simp only [isBase64Char, List.any_eq_true] at h
  obtain ⟨d, hd, hdc⟩ := h
  exact (eq_of_beq hdc) ▸ hd

theorem base64_facts : ∀ c ∈ base64Chars,
    isDotChar c = true ∧ isJsWhitespace c = false ∧ ('-' == c) = false ∧
      c ≠ '\n' := by decide

theorem ws_ne_dash {c : Char} (h : isJsWhitespace c = true) :
    ('-' == c) = false := by
  cases hd : ('-' == c) with
  | false => rfl
  | true =>
    have hce := eq_of_beq hd
    subst hce
    exact absurd h (by decide)

/-! ## The boundary case of an exact multiple of 64 -/

/-- Output ends in an empty line directly followed by the END marker
line. -/
def endsWithBlankThenEnd (l : List Char) : Prop :=
  ∃ front, l = front ++ '\n' :: '\n' :: endMarker.data

/-- C10: on a single-line input of the shape BEGIN marker, whitespace,
base64 body whose length is a positive exact multiple of 64, whitespace,
END marker, the normalizer emits an empty line immediately before the
END marker line: the chunker appends a newline to the final body chunk
on top of the newline already inserted before the END marker. -/
theorem claim10_blank_line_before_end (k : Nat) (ws1 ws2 body : List Char)
    (hlen : body.length = 64 * (k + 1))
    (hb64 : ∀ c ∈ body, isBase64Char c = true)
    (hws1 : ∀ c ∈ ws1, isJsWhitespace c = true ∧ c ≠ '\n')
    (hws2 : ∀ c ∈ ws2, isJsWhitespace c = true ∧ c ≠ '\n') :
    endsWithBlankThenEnd
      (normalizePem (String.mk
        (beginMarker.data ++ ws1 ++ body ++ ws2 ++ endMarker.data))).data := by
  have hbdot : ∀ c ∈ body, isDotChar c = true :=
    fun c hc => (base64_facts c (mem_of_isBase64Char (hb64 c hc))).1
  have hbws : ∀ c ∈ body, isJsWhitespace c = false :=
    fun c hc => (base64_facts c (mem_of_isBase64Char (hb64 c hc))).2.1
  have hbdash : ∀ c ∈ body, ('-' == c) = false :=
    fun c hc => (base64_facts c (mem_of_isBase64Char (hb64 c hc))).2.2.1
  have hbnl : ∀ c ∈ body, c ≠ '\n' :=
    fun c hc => (base64_facts c (mem_of_isBase64Char (hb64 c hc))).2.2.2
  have hbne : body ≠ [] := by
    intro h
    rw [h] at hlen
    simp at hlen
  have hnl : hasNl (beginMarker.data ++ ws1 ++ body ++ ws2 ++ endMarker.data)
      = false := by
    apply hasNl_eq_false_of
    intro c hc
    simp only [List.append_assoc, List.mem_append] at hc
    rcases hc with hc | hc | hc | hc | hc
    · exact (by decide : ∀ x ∈ beginMarker.data, x ≠ '\n') c hc
    · exact (hws1 c hc).2
    · exact hbnl c hc
    · exact (hws2 c hc).2
    · exact (by decide : ∀ x ∈ endMarker.data, x ≠ '\n') c hc
  -- step 1: the BEGIN replace
  have hsf1 : splitFirst beginMarker.data
      (beginMarker.data ++ ws1 ++ body ++ ws2 ++ endMarker.data)
      = some ([], ws1 ++ body ++ ws2 ++ endMarker.data) := by
    rw [show beginMarker.data ++ ws1 ++ body ++ ws2 ++ endMarker.data
        = beginMarker.data ++ (ws1 ++ body ++ ws2 ++ endMarker.data) by
      simp [List.append_assoc]]
    exact splitFirst_self_prefix _ _ (by decide)
  obtain ⟨b, bs, hbody⟩ : ∃ b bs, body = b :: bs := by
    cases hb : body with
    | nil => exact absurd hb hbne
    | cons b bs => exact ⟨b, bs, rfl⟩
  have hdw : List.dropWhile isJsWhitespace
      (ws1 ++ (body ++ (ws2 ++ endMarker.data)))
      = body ++ (ws2 ++ endMarker.data) := by
    rw [dropWhile_append_of_all (fun c hc => (hws1 c hc).1)]
    rw [hbody, List.cons_append]
    exact dropWhile_cons_of_not (hbws b (hbody ▸ List.mem_cons_self _ _))
  have hrb : replaceBegin
      (beginMarker.data ++ ws1 ++ body ++ ws2 ++ endMarker.data)
      = beginMarker.data ++ '\n' :: (body ++ ws2 ++ endMarker.data) := by
    unfold replaceBegin
    rw [hsf1]
    simp only [List.nil_append, List.append_assoc, hdw]
  -- step 2: the END replace
  have hclean : cleanAux endMarker.data (beginMarker.data ++ ['\n'])
      ((body ++ ws2) ++ endMarker.data) = true := rfl
  have hskip : ∀ c ∈ body ++ ws2, ∀ l,
      listStartsWith endMarker.data (c :: l) = false := by
    intro c hc l
    apply sw_end_false
    rcases List.mem_append.mp hc with hm | hm
    · exact hbdash c hm
    · exact ws_ne_dash (hws2 c hm).1
  have hsfE : splitFirst endMarker.data
      (beginMarker.data ++ '\n' :: (body ++ ws2 ++ endMarker.data))
      = some ((beginMarker.data ++ ['\n']) ++ (body ++ ws2), []) := by
    rw [show beginMarker.data ++ '\n' :: (body ++ ws2 ++ endMarker.data)
        = (beginMarker.data ++ ['\n']) ++ ((body ++ ws2) ++ endMarker.data) by
      simp [List.append_assoc]]
    rw [splitFirst_append_of_clean _ _ _ hclean]
    rw [splitFirst_skip _ _ _ hskip]
    have hself : splitFirst endMarker.data endMarker.data = some ([], []) := by
      have h := splitFirst_self_prefix endMarker.data [] (by decide)
      rwa [List.append_nil] at h
    rw [hself]
    simp
  have hdt : dropTrailingWs ((beginMarker.data ++ ['\n']) ++ (body ++ ws2))
      = (beginMarker.data ++ ['\n']) ++ body := by
    rw [show (beginMarker.data ++ ['\n']) ++ (body ++ ws2)
        = ((beginMarker.data ++ ['\n']) ++ body) ++ ws2 by
      simp [List.append_assoc]]
    exact dropTrailingWs_append (fun c hc => (hws2 c hc).1) hbws hbne
  have hre : replaceEnd
      (beginMarker.data ++ '\n' :: (body ++ ws2 ++ endMarker.data))
      = beginMarker.data ++ '\n' :: (body ++ '\n' :: endMarker.data) := by
    unfold replaceEnd
    rw [hsfE]
    show dropTrailingWs ((beginMarker.data ++ ['\n']) ++ (body ++ ws2))
        ++ '\n' :: (endMarker.data ++ []) = _
    rw [hdt]
    simp [List.append_assoc]
  -- step 3: the chunker
  rcases chunkAux_blocks k body ('\n' :: endMarker.data) hbdot hlen with ⟨f, hf⟩
  refine ⟨beginMarker.data ++ '\n' :: f, ?_⟩
  have hnorm : normalizePem (String.mk
      (beginMarker.data ++ ws1 ++ body ++ ws2 ++ endMarker.data))
      = String.mk (pemTransform
        (beginMarker.data ++ ws1 ++ body ++ ws2 ++ endMarker.data)) := by
    unfold normalizePem
    rw [show (String.mk
        (beginMarker.data ++ ws1 ++ body ++ ws2 ++ endMarker.data)).data
        = beginMarker.data ++ ws1 ++ body ++ ws2 ++ endMarker.data from rfl,
      hnl]
    simp
  rw [hnorm]
  show pemTransform (beginMarker.data ++ ws1 ++ body ++ ws2 ++ endMarker.data)
      = _
  unfold pemTransform chunk64
  rw [hrb, hre, chunkAux_beginPrefix, hf, chunkAux_nl_end]
  simp

/-- Witness for C10: a 64-character base64 body with single-space
whitespace runs. -/
theorem claim10_blank_line_before_end_witness :
    endsWithBlankThenEnd
      (normalizePem (String.mk
        (beginMarker.data ++ [' '] ++ List.replicate 64 'A' ++ [' ']
          ++ endMarker.data))).data :=
  claim10_blank_line_before_end 0 [' '] [' '] (List.replicate 64 'A')
    (by decide) (by decide) (by decide) (by decide)

/-! ## Concrete oracles used to instantiate the orchestrator claims -/

/-- Oracle whose key parser succeeds and whose primitive reports a valid
signature. -/
def oracleOk : CryptoOracle Unit :=
  { createPublicKey := fun _ => Except.ok (),
    cryptoVerify := fun _ _ _ _ => Except.ok true }

/-- Oracle whose primitive cleanly returns false: a structurally valid
but cryptographically non-matching signature. -/
def oracleFalse : CryptoOracle Unit :=
  { createPublicKey := fun _ => Except.ok (),
    cryptoVerify := fun _ _ _ _ => Except.ok false }

/-- Oracle whose primitive throws a structural error, as node's
`crypto.verify` does on inputs impossible for the chosen primitive. -/
def oracleStructErr : CryptoOracle Unit :=
  { createPublicKey := fun _ => Except.ok (),
    cryptoVerify := fun _ _ _ _ =>
      Except.error ("wrong signature length for curve") }

/-- Oracle whose key parser throws, as `createPublicKey` does on
malformed PEM text. -/
def oracleBadKey : CryptoOracle Unit :=
  { createPublicKey := fun _ =>
      Except.error ("Invalid PEM formatted message."),
    cryptoVerify := fun _ _ _ _ => Except.ok true }

/-! ## Registry facts shared by the algorithm claims -/

theorem algCheckFails_eq_false_of_lookup {a : String} {h : Option String}
    (ha : (a == "") = false) (hlook : List.lookup a algorithmMap = some h) :
    algCheckFails (some a) = false := by
  simp [algCheckFails, algString, ha, inAlgorithmMap, hlook]

theorem algMapRead_eq_of_lookup {a : String} {h : Option String}
    (hlook : List.lookup a algorithmMap = some h) :
    algMapRead a = HashArg.value h := by
  simp [algMapRead, hlook]

/-! ## Orchestrator claims -/

/-- C1: the orchestrator is a total function whose every run yields
either a verified outcome with no error, or an unverified outcome
carrying an error description — no failure mode escapes the outer
try/catch. -/
theorem claim1_never_raises {Key : Type} (O : CryptoOracle Key)
    (lib : LibBehavior) (pem : String) :
    ((verifySignature O lib pem).verified = true ∧
      (verifySignature O lib pem).error = none) ∨
    ((verifySignature O lib pem).verified = false ∧
      ∃ m, (verifySignature O lib pem).error = some m) := by
  cases hrv : runVerify O lib pem with
  | ok u => left; simp [verifySignature, hrv]
  | error m =>
    right
    refine ⟨?_, m, ?_⟩ <;> simp [verifySignature, hrv]

/-- C9: the outcome carries an error description exactly when it is not
verified, and it is a single optional field, so a verified result has no
error and a failed one has exactly one. -/
theorem claim9_error_iff_failure {Key : Type} (O : CryptoOracle Key)
    (lib : LibBehavior) (pem : String) :
    (verifySignature O lib pem).verified = false ↔
      (verifySignature O lib pem).error ≠ none := by
  cases hrv : runVerify O lib pem with
  | ok u => simp [verifySignature, hrv]
  | error m => simp [verifySignature, hrv]

/-- C5: when the supplied key text fails to parse, the outcome is the
key-parse failure with the parser's message, for every declared
algorithm (supported or not) and every primitive behaviour — the
pipeline short-circuits before algorithm resolution and the signature
check. -/
theorem claim5_key_parse_short_circuit {Key : Type} (O : CryptoOracle Key)
    (data pem : String) (sig : List Nat) (alg : Option String) (m : String)
    (hk : O.createPublicKey (normalizePem pem) = Except.error m) :
    verifySignature O (LibBehavior.invoke data sig alg) pem
      = { verified := false,
          error := some ("Failed to parse public key: " ++ m) } := by
  simp [verifySignature, runVerify, callback, parseStep, hk]

/-- Witness for C5: an unparseable key together with an unsupported
algorithm reports the key-parse failure, not the algorithm failure. -/
theorem claim5_key_parse_short_circuit_witness :
    verifySignature oracleBadKey
      (LibBehavior.invoke "data" [] (some ("rsa-sha1"))) "not a key"
      = { verified := false,
          error := some
            ("Failed to parse public key: Invalid PEM formatted message.") } :=
  claim5_key_parse_short_circuit oracleBadKey "data" "not a key" []
    (some ("rsa-sha1")) "Invalid PEM formatted message." rfl

/-- C4 as stated is refuted by the name `toString`: it is not a key of
the six-entry registry and the key parses, yet the outcome is not the
missing-or-unsupported-algorithm report, because the JS `in` test also
accepts names inherited from `Object.prototype`, so verification
proceeds to the primitive. -/
theorem claim4_counterexample :
    List.lookup ("toString") algorithmMap = none ∧
    verifySignature oracleFalse
      (LibBehavior.invoke "data" [] (some ("toString"))) "key"
      = { verified := false, error := some ("Invalid signature") } ∧
    ({ verified := false, error := some ("Invalid signature") }
        : VerificationResult)
      ≠ { verified := false,
          error := some ("Unsupported or missing algorithm: toString") } := by
  refine ⟨rfl, rfl, by decide⟩

/-- C4 as amended: when the declared algorithm is absent, empty, or
rejected by the JS `in` membership test (neither a registry key nor an
`Object.prototype` property name, e.g. `rsa-sha1`), and the key parses,
the outcome is the missing-or-unsupported-algorithm report; absence is
reported, never defaulted. -/
theorem claim4_missing_or_unsupported {Key : Type} (O : CryptoOracle Key)
    (data pem : String) (sig : List Nat) (alg : Option String) (k : Key)
    (hk : O.createPublicKey (normalizePem pem) = Except.ok k)
    (halg : algCheckFails alg = true) :
    (algCheckFails none = true ∧ algCheckFails (some ("")) = true ∧
      algCheckFails (some ("rsa-sha1")) = true) ∧
    verifySignature O (LibBehavior.invoke data sig alg) pem
      = { verified := false,
          error := some ("Unsupported or missing algorithm: "
            ++ algString alg) } := by
  refine ⟨⟨rfl, rfl, rfl⟩, ?_⟩
  simp [verifySignature, runVerify, callback, parseStep, hk, halg]

/-- Witness for the amended C4 at the unregistered name `rsa-sha1`. -/
theorem claim4_missing_or_unsupported_witness :
    (algCheckFails none = true ∧ algCheckFails (some ("")) = true ∧
      algCheckFails (some ("rsa-sha1")) = true) ∧
    verifySignature oracleOk
      (LibBehavior.invoke "data" [] (some ("rsa-sha1"))) "key"
      = { verified := false,
          error := some ("Unsupported or missing algorithm: rsa-sha1") } :=
  claim4_missing_or_unsupported oracleOk "data" "key" [] (some ("rsa-sha1"))
    () rfl rfl

/-- C3: the registry is a fixed case-sensitive exact-match table of
exactly six entries with the documented hash values (the `null` sentinel
for Ed25519), and for a registered algorithm the hash selector handed to
the primitive is exactly the table's value. -/
theorem claim3_registry_and_hash {Key : Type} (O : CryptoOracle Key)
    (pem data : String) (sig : List Nat) (a : String) (h : Option String)
    (k : Key)
    (hk : O.createPublicKey (normalizePem pem) = Except.ok k)
    (ha : (a == "") = false)
    (hlook : List.lookup a algorithmMap = some h) :
    (algorithmMap.length = 6 ∧
      List.lookup ("ecdsa-p256-sha256") algorithmMap = some (some ("sha256")) ∧
      List.lookup ("ecdsa-p384-sha384") algorithmMap = some (some ("sha384")) ∧
      List.lookup ("rsa-pss-sha512") algorithmMap = some (some ("sha512")) ∧
      List.lookup ("rsa-v1_5-sha256") algorithmMap = some (some ("sha256")) ∧
      List.lookup ("hmac-sha256") algorithmMap = some (some ("sha256")) ∧
      List.lookup ("ed25519") algorithmMap = some (none) ∧
      List.lookup ("ECDSA-P256-SHA256") algorithmMap = none) ∧
    callback O pem data sig (some a)
      = (match O.cryptoVerify (HashArg.value h) data k sig with
         | Except.ok true => Except.ok ()
         | Except.ok false => Except.error ("Invalid signature")
         | Except.error m => Except.error m) := by
  refine ⟨⟨rfl, rfl, rfl, rfl, rfl, rfl, rfl, rfl⟩, ?_⟩
  have hfails := algCheckFails_eq_false_of_lookup ha hlook
  have hread := algMapRead_eq_of_lookup hlook
  cases hcv : O.cryptoVerify (HashArg.value h) data k sig with
  | ok b =>
    cases b <;>
      simp [callback, parseStep, hk, hfails, algString, hread, hcv]
  | error m =>
    simp [callback, parseStep, hk, hfails, algString, hread, hcv]

/-- Witness for C3 at the Ed25519 entry: the sentinel (`null`) hash is
handed to the primitive and the table facts hold. -/
theorem claim3_registry_and_hash_witness :
    (algorithmMap.length = 6 ∧
      List.lookup ("ecdsa-p256-sha256") algorithmMap = some (some ("sha256")) ∧
      List.lookup ("ecdsa-p384-sha384") algorithmMap = some (some ("sha384")) ∧
      List.lookup ("rsa-pss-sha512") algorithmMap = some (some ("sha512")) ∧
      List.lookup ("rsa-v1_5-sha256") algorithmMap = some (some ("sha256")) ∧
      List.lookup ("hmac-sha256") algorithmMap = some (some ("sha256")) ∧
      List.lookup ("ed25519") algorithmMap = some (none) ∧
      List.lookup ("ECDSA-P256-SHA256") algorithmMap = none) ∧
    callback oracleOk "key" "data" [] (some ("ed25519")) = Except.ok () :=
  claim3_registry_and_hash oracleOk "key" "data" [] "ed25519" none ()
    rfl rfl rfl

/-- C2 as stated is refuted: a primitive that cleanly returns false and
one that throws a structural error both yield an unverified outcome, but
the two outcomes differ in their error description, so the two cases are
not surfaced identically. -/
theorem claim2_counterexample :
    (verifySignature oracleFalse
        (LibBehavior.invoke "data" [] (some ("ecdsa-p256-sha256")))
        "key").verified = false ∧
    (verifySignature oracleStructErr
        (LibBehavior.invoke "data" [] (some ("ecdsa-p256-sha256")))
        "key").verified = false ∧
    (verifySignature oracleFalse
        (LibBehavior.invoke "data" [] (some ("ecdsa-p256-sha256")))
        "key").error
      ≠ (verifySignature oracleStructErr
          (LibBehavior.invoke "data" [] (some ("ecdsa-p256-sha256")))
          "key").error := by
  refine ⟨rfl, rfl, by decide⟩

/-- C2 as amended: for a registered algorithm and a parsed key, a
primitive returning false yields the fixed `Invalid signature`
description, while a structural primitive error yields that error's own
message — both unverified, but distinguishable by the caller. -/
theorem claim2_mismatch_surfacing {Key : Type} (O : CryptoOracle Key)
    (pem data : String) (sig : List Nat) (a : String) (h : Option String)
    (k : Key)
    (hk : O.createPublicKey (normalizePem pem) = Except.ok k)
    (ha : (a == "") = false)
    (hlook : List.lookup a algorithmMap = some h) :
    verifySignature O (LibBehavior.invoke data sig (some a)) pem
      = (match O.cryptoVerify (HashArg.value h) data k sig with
         | Except.ok true => { verified := true, error := none }
         | Except.ok false =>
            { verified := false, error := some ("Invalid signature") }
         | Except.error m => { verified := false, error := some m }) := by
  have hfails := algCheckFails_eq_false_of_lookup ha hlook
  have hread := algMapRead_eq_of_lookup hlook
  cases hcv : O.cryptoVerify (HashArg.value h) data k sig with
  | ok b =>
    cases b <;>
      simp [verifySignature, runVerify, callback, parseStep, hk, hfails,
        algString, hread, hcv]
  | error m =>
    simp [verifySignature, runVerify, callback, parseStep, hk, hfails,
      algString, hread, hcv]

/-- Witness for the amended C2: a structural primitive error surfaces
with its own message. -/
theorem claim2_mismatch_surfacing_witness :
    verifySignature oracleStructErr
      (LibBehavior.invoke "data" [] (some ("ed25519"))) "key"
      = { verified := false,
          error := some ("wrong signature length for curve") } :=
  claim2_mismatch_surfacing oracleStructErr "key" "data" [] "ed25519" none ()
    rfl rfl rfl

end Rfc9421Demo
